import Mathlib

/-!
Verification of the pulse-2.0 image-filtering core (src/src/filter.cpp,
src/src/kernels.cpp, src/include/image.hpp, src/include/kernels.hpp).

Shallow embedding conventions:
* uint8 samples are modelled as Nat; the well-formedness predicate
  GrayscaleImage.wf records the uint8 range and the row-major size invariant.
* float / double arithmetic is modelled as exact rational arithmetic.  Every
  per-pixel computation of the C++ code is a fixed, data-independent sequence
  of operations that is executed identically by the serial, parallel and
  tiled code paths, so the equivalence claims are insensitive to this choice.
* static_cast<uint8_t> of a clamped nonnegative float truncates toward zero,
  modelled as Int.toNat of the rational floor.
* OpenMP pragmas only distribute loop iterations; each output cell is written
  exactly once from the read-only input.  The loops are therefore embedded as
  a fold of List.set operations in the source iteration order (writePass),
  which makes the cover/uniqueness argument behind the parallel-equals-serial
  claims explicit.
* std::string is modelled as a byte list (List Nat); std::tolower on an
  unsigned char in the default locale lowers only ASCII letters.
* thrown std::invalid_argument is modelled as Except.error carrying the
  message bytes.
-/

namespace img

/-- GrayscaleImage from src/include/image.hpp: width, height, max_val and a
row-major byte buffer. -/
structure GrayscaleImage where
  width : Nat
  height : Nat
  max_val : Nat
  data : List Nat
  deriving DecidableEq

/-- Unchecked accessor GrayscaleImage::pixel: data[y * width + x]. -/
def GrayscaleImage.pixel (im : GrayscaleImage) (x y : Nat) : Nat :=
  im.data.getD (y * im.width + x) 0

/-- GrayscaleImage::clamped_pixel from src/include/image.hpp: coordinates are
clamped to [0, dimension-1] before the row-major read. -/
def GrayscaleImage.clamped_pixel (im : GrayscaleImage) (x y : Int) : Nat :=
  let xc : Int := max 0 (min x ((im.width : Int) - 1))
  let yc : Int := max 0 (min y ((im.height : Int) - 1))
  im.data.getD (yc.toNat * im.width + xc.toNat) 0

/-- Size invariant of the data model (sample count = width*height, every
sample a byte). -/
def GrayscaleImage.wf (im : GrayscaleImage) : Prop :=
  im.data.length = im.width * im.height ∧ ∀ v ∈ im.data, v ≤ 255

instance (im : GrayscaleImage) : Decidable im.wf := by
  unfold GrayscaleImage.wf; infer_instance

end img

namespace kernels

/-- Kernel from src/include/kernels.hpp: flat weight list, edge size,
normalization divisor and display name. -/
structure Kernel where
  data : List ℚ
  size : Nat
  divisor : ℚ
  name : String
  deriving DecidableEq

/-- Kernel::at(x, y) = data[y * size + x]. -/
def Kernel.atXY (k : Kernel) (x y : Nat) : ℚ :=
  k.data.getD (y * k.size + x) 0

/-- Kernel::radius() = size / 2 (integer division). -/
def Kernel.radius (k : Kernel) : Nat := k.size / 2

/-- Kernel invariant from the spec data model: odd size and size*size
weights. -/
def Kernel.wf (k : Kernel) : Prop :=
  k.size % 2 = 1 ∧ k.data.length = k.size * k.size

instance (k : Kernel) : Decidable k.wf := by
  unfold Kernel.wf; infer_instance

/-- box_blur_3x3 from src/include/kernels.hpp. -/
def box_blur_3x3 : Kernel :=
  ⟨[1, 1, 1, 1, 1, 1, 1, 1, 1], 3, 9, "Box Blur 3x3"⟩

/-- gaussian_blur_3x3 from src/include/kernels.hpp. -/
def gaussian_blur_3x3 : Kernel :=
  ⟨[1, 2, 1, 2, 4, 2, 1, 2, 1], 3, 16, "Gaussian Blur 3x3"⟩

/-- sharpen_3x3 from src/include/kernels.hpp. -/
def sharpen_3x3 : Kernel :=
  ⟨[0, -1, 0, -1, 5, -1, 0, -1, 0], 3, 1, "Sharpen 3x3"⟩

/-- sharpen_strong_3x3 from src/include/kernels.hpp. -/
def sharpen_strong_3x3 : Kernel :=
  ⟨[-1, -1, -1, -1, 9, -1, -1, -1, -1], 3, 1, "Strong Sharpen 3x3"⟩

/-- sobel_x_3x3 from src/include/kernels.hpp. -/
def sobel_x_3x3 : Kernel :=
  ⟨[-1, 0, 1, -2, 0, 2, -1, 0, 1], 3, 1, "Sobel X"⟩

/-- sobel_y_3x3 from src/include/kernels.hpp. -/
def sobel_y_3x3 : Kernel :=
  ⟨[-1, -2, -1, 0, 0, 0, 1, 2, 1], 3, 1, "Sobel Y"⟩

/-- prewitt_x_3x3 from src/include/kernels.hpp. -/
def prewitt_x_3x3 : Kernel :=
  ⟨[-1, 0, 1, -1, 0, 1, -1, 0, 1], 3, 1, "Prewitt X"⟩

/-- prewitt_y_3x3 from src/include/kernels.hpp. -/
def prewitt_y_3x3 : Kernel :=
  ⟨[-1, -1, -1, 0, 0, 0, 1, 1, 1], 3, 1, "Prewitt Y"⟩

/-- laplacian_3x3 from src/include/kernels.hpp. -/
def laplacian_3x3 : Kernel :=
  ⟨[0, 1, 0, 1, -4, 1, 0, 1, 0], 3, 1, "Laplacian"⟩

/-- emboss_3x3 from src/include/kernels.hpp. -/
def emboss_3x3 : Kernel :=
  ⟨[-2, -1, 0, -1, 1, 1, 0, 1, 2], 3, 1, "Emboss"⟩

/-- identity_3x3 from src/include/kernels.hpp. -/
def identity_3x3 : Kernel :=
  ⟨[0, 0, 0, 0, 1, 0, 0, 0, 0], 3, 1, "Identity"⟩

/-- box_blur_5x5 from src/include/kernels.hpp. -/
def box_blur_5x5 : Kernel :=
  ⟨List.replicate 25 1, 5, 25, "Box Blur 5x5"⟩

/-- gaussian_blur_5x5 from src/include/kernels.hpp. -/
def gaussian_blur_5x5 : Kernel :=
  ⟨[1, 4, 6, 4, 1,
    4, 16, 24, 16, 4,
    6, 24, 36, 24, 6,
    4, 16, 24, 16, 4,
    1, 4, 6, 4, 1], 5, 256, "Gaussian Blur 5x5"⟩

/-- unsharp_mask_5x5 from src/include/kernels.hpp. -/
def unsharp_mask_5x5 : Kernel :=
  ⟨[-1, -4, -6, -4, -1,
    -4, -16, -24, -16, -4,
    -6, -24, 476, -24, -6,
    -4, -16, -24, -16, -4,
    -1, -4, -6, -4, -1], 5, 256, "Unsharp Mask 5x5"⟩

/-- sobel_x_5x5 from src/include/kernels.hpp. -/
def sobel_x_5x5 : Kernel :=
  ⟨[-1, -2, 0, 2, 1,
    -4, -8, 0, 8, 4,
    -6, -12, 0, 12, 6,
    -4, -8, 0, 8, 4,
    -1, -2, 0, 2, 1], 5, 1, "Sobel X 5x5"⟩

/-- sobel_y_5x5 from src/include/kernels.hpp. -/
def sobel_y_5x5 : Kernel :=
  ⟨[-1, -4, -6, -4, -1,
    -2, -8, -12, -8, -2,
    0, 0, 0, 0, 0,
    2, 8, 12, 8, 2,
    1, 4, 6, 4, 1], 5, 1, "Sobel Y 5x5"⟩

/-- log_5x5 from src/include/kernels.hpp. -/
def log_5x5 : Kernel :=
  ⟨[0, 0, -1, 0, 0,
    0, -1, -2, -1, 0,
    -1, -2, 16, -2, -1,
    0, -1, -2, -1, 0,
    0, 0, -1, 0, 0], 5, 1, "LoG 5x5"⟩

/-- std::tolower on one byte in the default locale: only ASCII A-Z move. -/
def toLowerByte (b : Nat) : Nat :=
  if 65 ≤ b ∧ b ≤ 90 then b + 32 else b

/-- std::transform(..., tolower) over an std::string viewed as bytes. -/
def lowerBytes (s : List Nat) : List Nat := s.map toLowerByte

/-- Byte list of an ASCII string literal (model of an std::string value). -/
def litBytes (s : String) : List Nat := s.data.map Char.toNat

/-- Lowercased-name dispatch of get_kernel_by_name (the if chain of
src/src/kernels.cpp lines 21-80, which matches the already lowered name). -/
def lookupLower (lower_name : List Nat) : Option Kernel :=
  if lower_name = litBytes "box_blur" ∨ lower_name = litBytes "box_blur_3x3" ∨
     lower_name = litBytes "blur" ∨ lower_name = litBytes "average" then
    some box_blur_3x3
  else if lower_name = litBytes "gaussian" ∨ lower_name = litBytes "gaussian_blur" ∨
     lower_name = litBytes "gaussian_blur_3x3" ∨ lower_name = litBytes "gaussian_3x3" then
    some gaussian_blur_3x3
  else if lower_name = litBytes "sharpen" ∨ lower_name = litBytes "sharpen_3x3" then
    some sharpen_3x3
  else if lower_name = litBytes "sharpen_strong" ∨ lower_name = litBytes "strong_sharpen" then
    some sharpen_strong_3x3
  else if lower_name = litBytes "sobel_x" ∨ lower_name = litBytes "sobel_x_3x3" ∨
     lower_name = litBytes "sobelx" then
    some sobel_x_3x3
  else if lower_name = litBytes "sobel_y" ∨ lower_name = litBytes "sobel_y_3x3" ∨
     lower_name = litBytes "sobely" then
    some sobel_y_3x3
  else if lower_name = litBytes "prewitt_x" ∨ lower_name = litBytes "prewittx" then
    some prewitt_x_3x3
  else if lower_name = litBytes "prewitt_y" ∨ lower_name = litBytes "prewitty" then
    some prewitt_y_3x3
  else if lower_name = litBytes "laplacian" ∨ lower_name = litBytes "laplacian_3x3" then
    some laplacian_3x3
  else if lower_name = litBytes "emboss" ∨ lower_name = litBytes "emboss_3x3" then
    some emboss_3x3
  else if lower_name = litBytes "identity" ∨ lower_name = litBytes "identity_3x3" then
    some identity_3x3
  else if lower_name = litBytes "box_blur_5x5" ∨ lower_name = litBytes "blur_5x5" then
    some box_blur_5x5
  else if lower_name = litBytes "gaussian_5x5" ∨ lower_name = litBytes "gaussian_blur_5x5" then
    some gaussian_blur_5x5
  else if lower_name = litBytes "unsharp" ∨ lower_name = litBytes "unsharp_mask" ∨
     lower_name = litBytes "unsharp_mask_5x5" then
    some unsharp_mask_5x5
  else if lower_name = litBytes "sobel_x_5x5" then
    some sobel_x_5x5
  else if lower_name = litBytes "sobel_y_5x5" then
    some sobel_y_5x5
  else if lower_name = litBytes "log" ∨ lower_name = litBytes "log_5x5" ∨
     lower_name = litBytes "laplacian_of_gaussian" then
    some log_5x5
  else
    none

/-- get_kernel_by_name from src/src/kernels.cpp: lowercase the name, run the
if chain, and throw std::invalid_argument("Unknown kernel: " + name) when
nothing matches. -/
def get_kernel_by_name (name : List Nat) : Except (List Nat) Kernel :=
  match lookupLower (lowerBytes name) with
  | some k => Except.ok k
  | none => Except.error (litBytes "Unknown kernel: " ++ name)

end kernels

namespace filter

open img kernels

/-- Schedule from src/include/filter.hpp. -/
inductive Schedule where
  | STATIC
  | DYNAMIC
  | GUIDED
  deriving DecidableEq

/-- FilterConfig from src/include/filter.hpp (tile_size is an int holding a
tile edge length; only nonnegative values are meaningful, hence Nat). -/
structure FilterConfig where
  num_threads : Int
  schedule : Schedule
  chunk_size : Int
  use_tiling : Bool
  tile_size : Nat
  deriving DecidableEq

/-- static_cast<uint8_t> applied to a float already clamped into [0, 255]:
truncation toward zero, i.e. the floor of a nonnegative value. -/
def castU8 (q : ℚ) : Nat := (⌊q⌋).toNat

/-- std::clamp(v, lo, hi). -/
def clampF (v lo hi : ℚ) : ℚ := max lo (min v hi)

/-- The convolution accumulation terms of one output pixel, in the source
iteration order (ky outer from -radius to radius, kx inner), with
clamp-to-edge coordinates exactly as in filter.cpp lines 66-78. -/
def convTerms (input : GrayscaleImage) (kernel : Kernel) (x y : Nat) : List ℚ :=
  let r := kernel.radius
  (List.range (2 * r + 1)).flatMap (fun (kyi : Nat) =>
    (List.range (2 * r + 1)).map (fun (kxi : Nat) =>
      let px : Int := max 0 (min ((x : Int) + ((kxi : Int) - (r : Int))) ((input.width : Int) - 1))
      let py : Int := max 0 (min ((y : Int) + ((kyi : Int) - (r : Int))) ((input.height : Int) - 1))
      (input.pixel px.toNat py.toNat : ℚ) * kernel.atXY kxi kyi))

/-- Accumulated convolution sum for one output pixel. -/
def convRaw (input : GrayscaleImage) (kernel : Kernel) (x y : Nat) : ℚ :=
  (convTerms input kernel x y).sum

/-- One output byte of apply_filter_serial (filter.cpp lines 62-84):
sum /= divisor; sum = max(0, min(255, sum)); cast to uint8_t. -/
def convSerialPix (input : GrayscaleImage) (kernel : Kernel) (x y : Nat) : Nat :=
  castU8 (max 0 (min 255 (convRaw input kernel x y / kernel.divisor)))

/-- One output byte of the parallel/tiled loop bodies (filter.cpp lines
187-188 etc.): std::clamp(sum / divisor, 0, 255) cast to uint8_t. -/
def convClampPix (input : GrayscaleImage) (kernel : Kernel) (x y : Nat) : Nat :=
  castU8 (clampF (convRaw input kernel x y / kernel.divisor) 0 255)

/-- A loop nest writing output.pixel(x, y) = f x y for each (x, y) of the
iteration order, on a row-major buffer of row length w: a fold of
List.set in iteration order. -/
def writePass (w : Nat) (f : Nat → Nat → Nat) (order : List (Nat × Nat))
    (init : List Nat) : List Nat :=
  order.foldl (fun acc p => acc.set (p.2 * w + p.1) (f p.1 p.2)) init

/-- Row-major iteration order (for y, for x) of the serial and parallel
loops. -/
def rowMajorOrder (w h : Nat) : List (Nat × Nat) :=
  (List.range h).flatMap (fun y => (List.range w).map (fun x => (x, y)))

/-- Tile-by-tile iteration order of apply_filter_tiled (filter.cpp lines
384-401): tiles are enumerated by flat index, decomposed into tile_y/tile_x,
and the clipped tile rectangle is scanned row-major. -/
def tileOrder (w h tile_size : Nat) : List (Nat × Nat) :=
  let num_tiles_y := (h + tile_size - 1) / tile_size
  let num_tiles_x := (w + tile_size - 1) / tile_size
  (List.range (num_tiles_x * num_tiles_y)).flatMap (fun tile_idx =>
    let tile_y := tile_idx / num_tiles_x
    let tile_x := tile_idx % num_tiles_x
    let y_start := tile_y * tile_size
    let y_end := min (y_start + tile_size) h
    let x_start := tile_x * tile_size
    let x_end := min (x_start + tile_size) w
    (List.range (y_end - y_start)).flatMap (fun dy =>
      (List.range (x_end - x_start)).map (fun dx => (x_start + dx, y_start + dy))))

/-- apply_filter_serial from filter.cpp lines 54-89: fresh output buffer
GrayscaleImage(width, height) (max_val defaults to 255, data zeroed), then
the row-major double loop writes every convolved pixel. -/
def apply_filter_serial (input : GrayscaleImage) (kernel : Kernel) : GrayscaleImage :=
  ⟨input.width, input.height, 255,
    writePass input.width (convSerialPix input kernel)
      (rowMajorOrder input.width input.height)
      (List.replicate (input.width * input.height) 0)⟩

/-- apply_filter_parallel from filter.cpp lines 158-289: the schedule switch
and chunk-size branch select an OpenMP pragma, but every branch runs the same
row-per-iteration loop body over the read-only input, each output pixel
written exactly once. -/
def apply_filter_parallel (input : GrayscaleImage) (kernel : Kernel)
    (config : FilterConfig) : GrayscaleImage :=
  match config.schedule with
  | Schedule.STATIC =>
    if 0 < config.chunk_size then
      ⟨input.width, input.height, 255,
        writePass input.width (convClampPix input kernel)
          (rowMajorOrder input.width input.height)
          (List.replicate (input.width * input.height) 0)⟩
    else
      ⟨input.width, input.height, 255,
        writePass input.width (convClampPix input kernel)
          (rowMajorOrder input.width input.height)
          (List.replicate (input.width * input.height) 0)⟩
  | Schedule.DYNAMIC =>
    if 0 < config.chunk_size then
      ⟨input.width, input.height, 255,
        writePass input.width (convClampPix input kernel)
          (rowMajorOrder input.width input.height)
          (List.replicate (input.width * input.height) 0)⟩
    else
      ⟨input.width, input.height, 255,
        writePass input.width (convClampPix input kernel)
          (rowMajorOrder input.width input.height)
          (List.replicate (input.width * input.height) 0)⟩
  | Schedule.GUIDED =>
    if 0 < config.chunk_size then
      ⟨input.width, input.height, 255,
        writePass input.width (convClampPix input kernel)
          (rowMajorOrder input.width input.height)
          (List.replicate (input.width * input.height) 0)⟩
    else
      ⟨input.width, input.height, 255,
        writePass input.width (convClampPix input kernel)
          (rowMajorOrder input.width input.height)
          (List.replicate (input.width * input.height) 0)⟩

/-- apply_filter_tiled from filter.cpp lines 371-420: fresh 255-max output,
tiles distributed dynamically, every tile pixel convolved with the same loop
body as the parallel path. -/
def apply_filter_tiled (input : GrayscaleImage) (kernel : Kernel)
    (config : FilterConfig) : GrayscaleImage :=
  ⟨input.width, input.height, 255,
    writePass input.width (convClampPix input kernel)
      (tileOrder input.width input.height config.tile_size)
      (List.replicate (input.width * input.height) 0)⟩

/-- The fixed Sobel X operator of filter.cpp line 127 (rows indexed ky+1). -/
def sobel_x : List (List Int) :=
  [[-1, 0, 1], [-2, 0, 2], [-1, 0, 1]]

/-- The fixed Sobel Y operator of filter.cpp line 128. -/
def sobel_y : List (List Int) :=
  [[-1, -2, -1], [0, 0, 0], [1, 2, 1]]

/-- Matrix element sobel_m[row][col]. -/
def sobelAt (m : List (List Int)) (row col : Nat) : Int :=
  (m.getD row []).getD col 0

/-- Gradient accumulation of the Sobel loops (filter.cpp lines 134-143):
sum over ky, kx of clamped pixel times m[ky+1][kx+1]. -/
def sobelGrad (input : GrayscaleImage) (m : List (List Int)) (x y : Nat) : ℚ :=
  ((List.range 3).flatMap (fun (kyi : Nat) =>
    (List.range 3).map (fun (kxi : Nat) =>
      let px : Int := max 0 (min ((x : Int) + ((kxi : Int) - 1)) ((input.width : Int) - 1))
      let py : Int := max 0 (min ((y : Int) + ((kyi : Int) - 1)) ((input.height : Int) - 1))
      (input.pixel px.toNat py.toNat : ℚ) * (sobelAt m kyi kxi : ℚ)))).sum

/-- Floor of the square root of a nonnegative rational.  For a nonnegative
rational q, the integer part of the exact square root equals Nat.sqrt of the
integer part of q; the float sqrt of the exact small integers produced by the
Sobel loops cannot round across an integer boundary, so this models
static_cast<uint8_t>(std::sqrt(q)). -/
def isqrtQ (q : ℚ) : Nat := Nat.sqrt (⌊q⌋).toNat

/-- One output byte of the Sobel loops (filter.cpp lines 146-147):
magnitude = sqrt(gx*gx + gy*gy); cast of min(255, magnitude). -/
def sobelPix (input : GrayscaleImage) (x y : Nat) : Nat :=
  let gx := sobelGrad input sobel_x x y
  let gy := sobelGrad input sobel_y x y
  min 255 (isqrtQ (gx * gx + gy * gy))

/-- sobel_edge_detection_serial from filter.cpp lines 123-152. -/
def sobel_edge_detection_serial (input : GrayscaleImage) : GrayscaleImage :=
  ⟨input.width, input.height, 255,
    writePass input.width (sobelPix input)
      (rowMajorOrder input.width input.height)
      (List.replicate (input.width * input.height) 0)⟩

/-- sobel_edge_detection_parallel from filter.cpp lines 329-365: identical
loop body, rows distributed statically over the workers. -/
def sobel_edge_detection_parallel (input : GrayscaleImage)
    (config : FilterConfig) : GrayscaleImage :=
  ⟨input.width, input.height, 255,
    writePass input.width (sobelPix input)
      (rowMajorOrder input.width input.height)
      (List.replicate (input.width * input.height) 0)⟩

/-- Result record of compute_statistics_parallel (the four double outputs). -/
structure Stats where
  min_val : ℚ
  max_val : ℚ
  mean : ℚ
  variance : ℚ
  deriving DecidableEq

/-- compute_statistics_parallel from filter.cpp lines 465-496: early zero
return on an empty buffer; otherwise one pass accumulating sum, sum of
squares, running minimum (seeded with 255.0) and running maximum (seeded with
0.0), then mean = sum/n and variance = sum_sq/n - mean*mean. -/
def compute_statistics_parallel (im : GrayscaleImage) : Stats :=
  let n := im.data.length
  if n = 0 then ⟨0, 0, 0, 0⟩
  else
    let vals : List ℚ := im.data.map (fun (v : Nat) => (v : ℚ))
    let sum := vals.sum
    let sum_sq := (vals.map (fun v => v * v)).sum
    let local_min := vals.foldl (fun m v => if v < m then v else m) 255
    let local_max := vals.foldl (fun m v => if m < v then v else m) 0
    let mean := sum / (n : ℚ)
    ⟨local_min, local_max, mean, sum_sq / (n : ℚ) - mean * mean⟩

/-- One histogram increment local_hist[v]++ (filter.cpp line 509). -/
def histAccum (h : List Nat) (v : Nat) : List Nat :=
  h.set v (h.getD v 0 + 1)

/-- Histogram of one sample partition: a fresh 256-bin array and one
increment per sample. -/
def histLocal (samples : List Nat) : List Nat :=
  samples.foldl histAccum (List.replicate 256 0)

/-- compute_histogram_parallel from filter.cpp lines 498-522.  The worker
decomposition and the critical-section merge add the per-worker private
histograms into the shared one; the total effect on the returned buffer is
one increment per sample. -/
def compute_histogram_parallel (im : GrayscaleImage) : List Nat :=
  histLocal im.data

/-- Bin-wise addition of one private histogram into the shared one
(filter.cpp lines 513-518). -/
def mergeHist (shared local_hist : List Nat) : List Nat :=
  List.zipWith (fun a b => a + b) shared local_hist

/-- The merged shared histogram for an arbitrary worker decomposition of the
samples into chunks: each chunk is counted privately and merged by bin-wise
addition, in chunk order, into the zeroed shared histogram. -/
def histOfChunks (chunks : List (List Nat)) : List Nat :=
  (chunks.map histLocal).foldl mergeHist (List.replicate 256 0)

/-- Loop of apply_filter_chain_serial (filter.cpp lines 434-438): look each
name up (a failed lookup throws out of the whole chain) and feed the output
of each step into the next. -/
def chainLoop (current : GrayscaleImage) : List (List Nat) → Except (List Nat) GrayscaleImage
  | [] => Except.ok current
  | name :: rest =>
    match get_kernel_by_name name with
    | Except.error e => Except.error e
    | Except.ok k => chainLoop (apply_filter_serial current k) rest

/-- apply_filter_chain_serial from filter.cpp lines 426-441: an empty name
list returns the input unchanged, otherwise the lookup/apply loop runs. -/
def apply_filter_chain_serial (input : GrayscaleImage)
    (kernel_names : List (List Nat)) : Except (List Nat) GrayscaleImage :=
  if kernel_names.isEmpty then Except.ok input else chainLoop input kernel_names

/-- Spec-side chain contract (spec section 4.3, for claim C8): a left fold of
the serial filter over the looked-up kernels, where each step feeds its
output to the next and a failed lookup aborts. -/
def chainSpecFold (input : GrayscaleImage)
    (kernel_names : List (List Nat)) : Except (List Nat) GrayscaleImage :=
  kernel_names.foldlM
    (fun im nm => Except.map (fun k => apply_filter_serial im k) (get_kernel_by_name nm)) input

/-- Spec-side per-pixel contract of claim C2, following the claim words: sum
over (kx, ky) in [-radius, radius] squared of
input[clamp(x+kx), clamp(y+ky)] * kernel[kx+radius, ky+radius], divided by
the divisor, saturated to [0, max-value of the input image], stored as a
byte. -/
def specPixMV (input : GrayscaleImage) (kernel : Kernel) (x y : Nat) : ℚ → Nat :=
  fun maxv =>
  let r : Int := (kernel.radius : Int)
  let s : ℚ :=
    ∑ ky ∈ Finset.Icc (-r) r, ∑ kx ∈ Finset.Icc (-r) r,
      (input.clamped_pixel ((x : Int) + kx) ((y : Int) + ky) : ℚ) *
        kernel.atXY (kx + r).toNat (ky + r).toNat
  castU8 (min maxv (max 0 (s / kernel.divisor)))

/-- Claim C2's saturation bound: the max-value field of the input image. -/
def specPixInputMV (input : GrayscaleImage) (kernel : Kernel) (x y : Nat) : Nat :=
  specPixMV input kernel x y (input.max_val : ℚ)

/-- The amended saturation bound: the constant 255 the code actually uses. -/
def specPix255 (input : GrayscaleImage) (kernel : Kernel) (x y : Nat) : Nat :=
  specPixMV input kernel x y 255

theorem writePass_cons (w : Nat) (f : Nat → Nat → Nat) (p : Nat × Nat)
    (rest : List (Nat × Nat)) (init : List Nat) :
    writePass w f (p :: rest) init =
      writePass w f rest (init.set (p.2 * w + p.1) (f p.1 p.2)) := rfl

theorem length_writePass (w : Nat) (f : Nat → Nat → Nat) :
    ∀ (order : List (Nat × Nat)) (init : List Nat),
      (writePass w f order init).length = init.length := by
  intro order
  induction order with
  | nil => intro init; rfl
  | cons p rest ih =>
    intro init
    rw [writePass_cons, ih, List.length_set]

theorem linIdx_inj {w x₁ y₁ x₂ y₂ : Nat} (h1 : x₁ < w) (h2 : x₂ < w)
    (h : y₁ * w + x₁ = y₂ * w + x₂) : x₁ = x₂ ∧ y₁ = y₂ := by
  have h' : x₁ + w * y₁ = x₂ + w * y₂ := by
    have e1 : y₁ * w + x₁ = x₁ + w * y₁ := by ring
    have e2 : y₂ * w + x₂ = x₂ + w * y₂ := by ring
    rw [e1, e2] at h; exact h
  have hx : x₁ = x₂ := by
    have hm := congrArg (fun t => t % w) h'
    simpa [Nat.add_mul_mod_self_left, Nat.mod_eq_of_lt h1, Nat.mod_eq_of_lt h2] using hm
  refine ⟨hx, ?_⟩
  subst hx
  have hw : 0 < w := lt_of_le_of_lt (Nat.zero_le x₁) h1
  have hmul : w * y₁ = w * y₂ := by omega
  exact Nat.eq_of_mul_eq_mul_left hw hmul

theorem writePass_getElem_not_mem (w : Nat) (f : Nat → Nat → Nat)
    (order : List (Nat × Nat)) (x y : Nat) (hx : x < w)
    (hall : ∀ p ∈ order, p.1 < w) (hnm : (x, y) ∉ order) :
    ∀ init : List Nat, (writePass w f order init)[y * w + x]? = init[y * w + x]? := by
  induction order with
  | nil => intro init; rfl
  | cons p rest ih =>
    intro init
    rw [writePass_cons]
    rw [ih (fun q hq => hall q (List.mem_cons_of_mem p hq))
      (fun hr => hnm (List.mem_cons_of_mem p hr))]
    apply List.getElem?_set_ne
    intro heq
    obtain ⟨hx', hy'⟩ := linIdx_inj (hall p (List.mem_cons_self p rest)) hx heq
    exact hnm (by
      have : p = (x, y) := by
        cases p with
        | mk a b => simp only at hx' hy'; rw [hx', hy']
      rw [← this]; exact List.mem_cons_self p rest)

theorem writePass_getElem_mem (w : Nat) (f : Nat → Nat → Nat)
    (order : List (Nat × Nat)) (x y : Nat) (hx : x < w)
    (hall : ∀ p ∈ order, p.1 < w) (hm : (x, y) ∈ order) :
    ∀ init : List Nat, y * w + x < init.length →
      (writePass w f order init)[y * w + x]? = some (f x y) := by
  induction order with
  | nil => cases hm
  | cons p rest ih =>
    intro init hlen
    rw [writePass_cons]
    by_cases hr : (x, y) ∈ rest
    · exact ih (fun q hq => hall q (List.mem_cons_of_mem p hq)) hr _
        (by rw [List.length_set]; exact hlen)
    · have hp : p = (x, y) := by
        rcases List.mem_cons.mp hm with he | he
        · exact he.symm
        · exact absurd he hr
      subst hp
      rw [writePass_getElem_not_mem w f rest x y hx
        (fun q hq => hall q (List.mem_cons_of_mem _ hq)) hr]
      exact List.getElem?_set_self hlen

theorem mem_rowMajorOrder {w h x y : Nat} :
    (x, y) ∈ rowMajorOrder w h ↔ x < w ∧ y < h := by
  simp only [rowMajorOrder, List.mem_flatMap, List.mem_map, List.mem_range,
    Prod.mk.injEq]
  constructor
  · rintro ⟨b, hb, a, ha, hax, hby⟩
    exact ⟨hax ▸ ha, hby ▸ hb⟩
  · rintro ⟨hxw, hyh⟩
    exact ⟨y, hyh, x, hxw, rfl, rfl⟩

theorem writePass_grid_getElem (w h : Nat) (f : Nat → Nat → Nat)
    (order : List (Nat × Nat)) (hall : ∀ p ∈ order, p.1 < w)
    (hcov : ∀ x y, x < w → y < h → (x, y) ∈ order) (n : Nat) (hn : n < w * h) :
    (writePass w f order (List.replicate (w * h) 0))[n]? =
      some (f (n % w) (n / w)) := by
  have hw : 0 < w := by
    rcases Nat.eq_zero_or_pos w with h0 | h0
    · rw [h0] at hn; omega
    · exact h0
  have hx : n % w < w := Nat.mod_lt _ hw
  have hy : n / w < h := (Nat.div_lt_iff_lt_mul hw).mpr (by rw [Nat.mul_comm h w]; exact hn)
  have hrep : (n / w) * w + n % w = n := by
    rw [Nat.mul_comm]; exact Nat.div_add_mod n w
  have hres := writePass_getElem_mem w f order (n % w) (n / w) hx hall
    (hcov _ _ hx hy) (List.replicate (w * h) 0)
    (by rw [List.length_replicate, hrep]; exact hn)
  rwa [hrep] at hres

theorem convClampPix_eq_convSerialPix (input : GrayscaleImage) (kernel : Kernel)
    (x y : Nat) : convClampPix input kernel x y = convSerialPix input kernel x y := by
  unfold convClampPix convSerialPix clampF
  rw [min_comm]

theorem le_ceilDiv_mul (a T : Nat) (hT : 0 < T) : a ≤ ((a + T - 1) / T) * T := by
  have h1 := Nat.div_add_mod (a + T - 1) T
  have h2 : (a + T - 1) % T < T := Nat.mod_lt _ hT
  rw [Nat.mul_comm]
  generalize hQ : T * ((a + T - 1) / T) = Q at h1 ⊢
  generalize hR : (a + T - 1) % T = R at h1 h2
  omega

theorem lt_div_mul_add (y T : Nat) (hT : 0 < T) : y < (y / T) * T + T := by
  have h1 := Nat.div_add_mod y T
  have h2 : y % T < T := Nat.mod_lt _ hT
  rw [Nat.mul_comm]
  generalize hQ : T * (y / T) = Q at h1 ⊢
  generalize hR : y % T = R at h1 h2
  omega

theorem mem_tileOrder_bound {w h T : Nat} :
    ∀ p ∈ tileOrder w h T, p.1 < w ∧ p.2 < h := by
  rintro ⟨a, b⟩ hp
  simp only [tileOrder, List.mem_flatMap, List.mem_map, List.mem_range,
    Prod.mk.injEq] at hp
  obtain ⟨t, ht, dy, hdy, dx, hdx, hax, hby⟩ := hp
  omega

theorem mem_tileOrder {w h T x y : Nat} (hT : 0 < T) (hx : x < w) (hy : y < h) :
    (x, y) ∈ tileOrder w h T := by
  have hntxw : w ≤ ((w + T - 1) / T) * T := le_ceilDiv_mul w T hT
  have hntyh : h ≤ ((h + T - 1) / T) * T := le_ceilDiv_mul h T hT
  set ntx := (w + T - 1) / T with hntx
  set nty := (h + T - 1) / T with hnty
  have htx : x / T < ntx := (Nat.div_lt_iff_lt_mul hT).mpr (lt_of_lt_of_le hx hntxw)
  have hty : y / T < nty := (Nat.div_lt_iff_lt_mul hT).mpr (lt_of_lt_of_le hy hntyh)
  have hntxpos : 0 < ntx := lt_of_le_of_lt (Nat.zero_le _) htx
  have hti : (y / T) * ntx + x / T < ntx * nty := by
    calc (y / T) * ntx + x / T < (y / T) * ntx + ntx := Nat.add_lt_add_left htx _
    _ = (y / T + 1) * ntx := by ring
    _ ≤ nty * ntx := Nat.mul_le_mul_right _ (Nat.succ_le_of_lt hty)
    _ = ntx * nty := Nat.mul_comm _ _
  have hdiv : ((y / T) * ntx + x / T) / ntx = y / T := by
    rw [show (y / T) * ntx + x / T = x / T + ntx * (y / T) by ring]
    rw [Nat.add_mul_div_left _ _ hntxpos, Nat.div_eq_of_lt htx, Nat.zero_add]
  have hmod : ((y / T) * ntx + x / T) % ntx = x / T := by
    rw [show (y / T) * ntx + x / T = x / T + ntx * (y / T) by ring]
    rw [Nat.add_mul_mod_self_left, Nat.mod_eq_of_lt htx]
  have hys : (y / T) * T ≤ y := Nat.div_mul_le_self y T
  have hye : y < (y / T) * T + T := lt_div_mul_add y T hT
  have hxs : (x / T) * T ≤ x := Nat.div_mul_le_self x T
  have hxe : x < (x / T) * T + T := lt_div_mul_add x T hT
  simp only [tileOrder, List.mem_flatMap, List.mem_map, List.mem_range,
    Prod.mk.injEq]
  refine ⟨(y / T) * ntx + x / T, hti, ?_⟩
  rw [hdiv, hmod]
  exact ⟨y - (y / T) * T, by omega, x - (x / T) * T, by omega, by omega, by omega⟩

/-- C1: for every grayscale image, kernel and FilterConfig (any schedule, any
chunk size, any thread count, and for the tiled path any tile size at least
1), the output of apply_filter_parallel and of apply_filter_tiled is
byte-identical to the output of apply_filter_serial: every parallel and tiled
loop computes each output pixel from the read-only input by the very same
expression, writes it exactly once, and covers every pixel. -/
theorem parallel_and_tiled_byte_identical_to_serial (input : GrayscaleImage)
    (kernel : Kernel) (config : FilterConfig) :
    apply_filter_parallel input kernel config = apply_filter_serial input kernel ∧
    (1 ≤ config.tile_size →
      apply_filter_tiled input kernel config = apply_filter_serial input kernel) := by
  have hfun : convClampPix input kernel = convSerialPix input kernel :=
    funext fun x => funext fun y => convClampPix_eq_convSerialPix input kernel x y
  constructor
  · rcases config with ⟨nt, sch, ch, tl, ts⟩
    cases sch <;>
      simp only [apply_filter_parallel, apply_filter_serial, hfun] <;>
      split <;> rfl
  · intro hT
    unfold apply_filter_tiled apply_filter_serial
    rw [hfun]
    congr 1
    apply List.ext_getElem?
    intro n
    by_cases hn : n < input.width * input.height
    · rw [writePass_grid_getElem input.width input.height _ _
        (fun p hp => (mem_tileOrder_bound p hp).1)
        (fun a b ha hb => mem_tileOrder hT ha hb) n hn]
      rw [writePass_grid_getElem input.width input.height _ _
        (fun p hp => (mem_rowMajorOrder.mp hp).1)
        (fun a b ha hb => mem_rowMajorOrder.mpr ⟨ha, hb⟩) n hn]
    · have h1 : (writePass input.width (convSerialPix input kernel)
          (tileOrder input.width input.height config.tile_size)
          (List.replicate (input.width * input.height) 0)).length ≤ n := by
        rw [length_writePass, List.length_replicate]; omega
      have h2 : (writePass input.width (convSerialPix input kernel)
          (rowMajorOrder input.width input.height)
          (List.replicate (input.width * input.height) 0)).length ≤ n := by
        rw [length_writePass, List.length_replicate]; omega
      rw [List.getElem?_eq_none h1, List.getElem?_eq_none h2]

theorem list_range_map_sum (n : Nat) (f : Nat → ℚ) :
    ((List.range n).map f).sum = ∑ i ∈ Finset.range n, f i := by
  induction n with
  | zero => simp
  | succ k ih =>
    rw [List.range_succ, List.map_append, List.sum_append, Finset.sum_range_succ, ih]
    simp

theorem list_grid_sum (n m : Nat) (g : Nat → Nat → ℚ) :
    ((List.range n).flatMap (fun i => (List.range m).map (fun j => g i j))).sum =
      ∑ i ∈ Finset.range n, ∑ j ∈ Finset.range m, g i j := by
  induction n with
  | zero => simp
  | succ k ih =>
    rw [List.range_succ, List.flatMap_append, List.sum_append, Finset.sum_range_succ, ih]
    simp [list_range_map_sum]

theorem sum_range_shift (r : Nat) (g : Int → ℚ) :
    ∑ z ∈ Finset.Icc (-(r : Int)) (r : Int), g z =
      ∑ n ∈ Finset.range (2 * r + 1), g ((n : Int) - (r : Int)) := by
  have hinj : Function.Injective (fun n : Nat => (n : Int) - (r : Int)) := by
    intro a b hab
    simp only at hab
    omega
  have hmap : Finset.Icc (-(r : Int)) (r : Int) =
      (Finset.range (2 * r + 1)).map ⟨fun n : Nat => (n : Int) - (r : Int), hinj⟩ := by
    ext z
    simp only [Finset.mem_Icc, Finset.mem_map, Finset.mem_range,
      Function.Embedding.coeFn_mk]
    constructor
    · rintro ⟨h1, h2⟩
      exact ⟨(z + r).toNat, by omega, by omega⟩
    · rintro ⟨a, ha, rfl⟩
      omega
  rw [hmap, Finset.sum_map]
  rfl

theorem convRaw_eq_Icc (input : GrayscaleImage) (kernel : Kernel) (x y : Nat) :
    convRaw input kernel x y =
      ∑ ky ∈ Finset.Icc (-(kernel.radius : Int)) (kernel.radius : Int),
        ∑ kx ∈ Finset.Icc (-(kernel.radius : Int)) (kernel.radius : Int),
          (input.clamped_pixel ((x : Int) + kx) ((y : Int) + ky) : ℚ) *
            kernel.atXY (kx + (kernel.radius : Int)).toNat
              (ky + (kernel.radius : Int)).toNat := by
  unfold convRaw convTerms
  rw [list_grid_sum]
  rw [sum_range_shift kernel.radius]
  refine Finset.sum_congr rfl (fun kyi _ => ?_)
  rw [sum_range_shift kernel.radius]
  refine Finset.sum_congr rfl (fun kxi _ => ?_)
  have e1 : ((kxi : Int) - (kernel.radius : Int) + (kernel.radius : Int)).toNat = kxi := by
    omega
  have e2 : ((kyi : Int) - (kernel.radius : Int) + (kernel.radius : Int)).toNat = kyi := by
    omega
  rw [e1, e2]
  simp only [GrayscaleImage.clamped_pixel, GrayscaleImage.pixel]

theorem lin_lt {w h x y : Nat} (hx : x < w) (hy : y < h) : y * w + x < w * h := by
  calc y * w + x < y * w + w := Nat.add_lt_add_left hx _
  _ = (y + 1) * w := by ring
  _ ≤ h * w := Nat.mul_le_mul_right _ (by omega)
  _ = w * h := Nat.mul_comm _ _

theorem lin_mod {w x y : Nat} (hx : x < w) : (y * w + x) % w = x := by
  rw [show y * w + x = x + w * y by ring, Nat.add_mul_mod_self_left,
    Nat.mod_eq_of_lt hx]

theorem lin_div {w x y : Nat} (hx : x < w) : (y * w + x) / w = y := by
  have hw : 0 < w := lt_of_le_of_lt (Nat.zero_le x) hx
  rw [show y * w + x = x + w * y by ring, Nat.add_mul_div_left _ _ hw,
    Nat.div_eq_of_lt hx, Nat.zero_add]

theorem serial_pixel_eval (input : GrayscaleImage) (kernel : Kernel) {x y : Nat}
    (hx : x < input.width) (hy : y < input.height) :
    (apply_filter_serial input kernel).pixel x y = convSerialPix input kernel x y := by
  unfold apply_filter_serial GrayscaleImage.pixel
  dsimp only
  rw [List.getD_eq_getElem?_getD]
  rw [writePass_grid_getElem input.width input.height _ _
    (fun p hp => (mem_rowMajorOrder.mp hp).1)
    (fun a b ha hb => mem_rowMajorOrder.mpr ⟨ha, hb⟩) _ (lin_lt hx hy)]
  rw [lin_mod hx, lin_div hx]
  rfl

theorem getD_replicate_of_lt {n i c : Nat} (h : i < n) :
    (List.replicate n c).getD i 0 = c := by
  rw [List.getD_eq_getElem?_getD, List.getElem?_replicate, if_pos h]
  rfl

theorem const_pixel_clamped {w h mv c : Nat} (hw : 0 < w) (hh : 0 < h) (a b : Int) :
    (⟨w, h, mv, List.replicate (w * h) c⟩ : GrayscaleImage).pixel
      (max 0 (min a ((w : Int) - 1))).toNat
      (max 0 (min b ((h : Int) - 1))).toNat = c := by
  unfold GrayscaleImage.pixel
  dsimp only
  have hax : (max 0 (min a ((w : Int) - 1))).toNat ≤ w - 1 := by omega
  have hby : (max 0 (min b ((h : Int) - 1))).toNat ≤ h - 1 := by omega
  apply getD_replicate_of_lt
  calc (max 0 (min b ((h : Int) - 1))).toNat * w + (max 0 (min a ((w : Int) - 1))).toNat
      ≤ (h - 1) * w + (w - 1) := Nat.add_le_add (Nat.mul_le_mul_right _ hby) hax
  _ < (h - 1) * w + w := by omega
  _ = ((h - 1) + 1) * w := by ring
  _ = h * w := by congr 1; omega
  _ = w * h := Nat.mul_comm _ _

theorem list_sum_eq_range_getD (l : List ℚ) :
    l.sum = ∑ i ∈ Finset.range l.length, l.getD i 0 := by
  induction l with
  | nil => simp
  | cons a t ih =>
    rw [List.sum_cons, List.length_cons, Finset.sum_range_succ', ih]
    simp only [List.getD_cons_succ, List.getD_cons_zero]
    rw [add_comm]

theorem sum_range_mul_decompose (n m : Nat) (f : Nat → ℚ) :
    ∑ i ∈ Finset.range (n * m), f i =
      ∑ r ∈ Finset.range n, ∑ c ∈ Finset.range m, f (r * m + c) := by
  induction n with
  | zero => simp
  | succ k ih =>
    have hsplit : (k + 1) * m = k * m + m := by ring
    rw [hsplit, Finset.sum_range_add, ih, Finset.sum_range_succ]

theorem kernel_grid_sum (kernel : Kernel) (hk : kernel.wf) :
    ((List.range (2 * kernel.radius + 1)).flatMap (fun kyi =>
      (List.range (2 * kernel.radius + 1)).map (fun kxi => kernel.atXY kxi kyi))).sum =
      kernel.data.sum := by
  have hsize : 2 * kernel.radius + 1 = kernel.size := by
    have h1 := hk.1
    unfold Kernel.radius
    omega
  rw [list_grid_sum, hsize, list_sum_eq_range_getD kernel.data, hk.2,
    sum_range_mul_decompose]
  exact Finset.sum_congr rfl fun r _ => Finset.sum_congr rfl fun c _ => rfl

theorem convRaw_const (w h mv c : Nat) (hw : 0 < w) (hh : 0 < h)
    (kernel : Kernel) (x y : Nat) :
    convRaw ⟨w, h, mv, List.replicate (w * h) c⟩ kernel x y =
      (c : ℚ) * ((List.range (2 * kernel.radius + 1)).flatMap (fun kyi =>
        (List.range (2 * kernel.radius + 1)).map (fun kxi =>
          kernel.atXY kxi kyi))).sum := by
  unfold convRaw convTerms
  rw [list_grid_sum, list_grid_sum, Finset.mul_sum]
  refine Finset.sum_congr rfl fun kyi _ => ?_
  rw [Finset.mul_sum]
  refine Finset.sum_congr rfl fun kxi _ => ?_
  dsimp only
  rw [const_pixel_clamped hw hh]

theorem max_zero_min_255 (q : ℚ) : max 0 (min 255 q) = min 255 (max 0 q) := by
  rcases le_total q 0 with h | h
  · have h255 : q ≤ 255 := le_trans h (by norm_num)
    rw [min_eq_right h255, max_eq_left h,
      min_eq_right (max_eq_left h ▸ (by norm_num : (0 : ℚ) ≤ 255))]
  · rw [max_eq_right h, max_eq_right (le_min (by norm_num) h)]

end filter

namespace filter

open img kernels

/-- C1 witness: the parallel/tiled-equals-serial theorem applied at a
concrete image, kernel and configuration (tile size 1, dynamic schedule),
with the tile-size hypothesis discharged concretely. -/
theorem parallel_and_tiled_byte_identical_to_serial_witness :
    apply_filter_parallel ⟨2, 2, 255, [10, 20, 30, 40]⟩ box_blur_3x3
        ⟨3, Schedule.DYNAMIC, 2, true, 1⟩ =
      apply_filter_serial ⟨2, 2, 255, [10, 20, 30, 40]⟩ box_blur_3x3 ∧
    apply_filter_tiled ⟨2, 2, 255, [10, 20, 30, 40]⟩ box_blur_3x3
        ⟨3, Schedule.DYNAMIC, 2, true, 1⟩ =
      apply_filter_serial ⟨2, 2, 255, [10, 20, 30, 40]⟩ box_blur_3x3 :=
  ⟨(parallel_and_tiled_byte_identical_to_serial ⟨2, 2, 255, [10, 20, 30, 40]⟩
      box_blur_3x3 ⟨3, Schedule.DYNAMIC, 2, true, 1⟩).1,
   (parallel_and_tiled_byte_identical_to_serial ⟨2, 2, 255, [10, 20, 30, 40]⟩
      box_blur_3x3 ⟨3, Schedule.DYNAMIC, 2, true, 1⟩).2 (by norm_num)⟩

/-- C2 counterexample: on the 1x1 image with max_val 100 and sample 100,
convolved with the 1x1 kernel of weight 3 and divisor 1, the code clamps to
the constant 255 and stores 255, while the claim formula saturating to
[0, input max-value] would store 100. -/
theorem serial_saturation_ignores_input_max_val :
    (apply_filter_serial ⟨1, 1, 100, [100]⟩ ⟨[3], 1, 1, "Triple"⟩).pixel 0 0 ≠
      specPixInputMV ⟨1, 1, 100, [100]⟩ ⟨[3], 1, 1, "Triple"⟩ 0 0 := by
  have h1 : (apply_filter_serial ⟨1, 1, 100, [100]⟩ ⟨[3], 1, 1, "Triple"⟩).pixel 0 0 = 255 := by
    rw [serial_pixel_eval _ _ (by norm_num) (by norm_num)]
    simp [convSerialPix, convRaw, convTerms, Kernel.radius, Kernel.atXY,
      GrayscaleImage.pixel, castU8, List.range_succ]
    norm_num
    rfl
  have h2 : specPixInputMV ⟨1, 1, 100, [100]⟩ ⟨[3], 1, 1, "Triple"⟩ 0 0 = 100 := by
    simp [specPixInputMV, specPixMV, Kernel.radius, Kernel.atXY,
      GrayscaleImage.clamped_pixel, castU8]
  rw [h1, h2]
  decide

/-- C2 (amended): apply_filter_serial produces an output of the input's
dimensions in which every sample at (x, y) equals the kernel-radius window
sum of clamped-to-edge input pixels weighted by the kernel, divided by the
divisor, then saturated to the fixed range [0, 255] (not to the input
image's max-value) and stored as a byte. -/
theorem serial_matches_spec_convolution (input : GrayscaleImage) (kernel : Kernel)
    (x y : Nat) (hx : x < input.width) (hy : y < input.height) :
    (apply_filter_serial input kernel).width = input.width ∧
    (apply_filter_serial input kernel).height = input.height ∧
    (apply_filter_serial input kernel).pixel x y = specPix255 input kernel x y := by
  refine ⟨rfl, rfl, ?_⟩
  rw [serial_pixel_eval input kernel hx hy]
  unfold convSerialPix specPix255 specPixMV
  dsimp only
  rw [← convRaw_eq_Icc]
  rw [max_zero_min_255]

/-- C2 witness: the amended per-pixel contract instantiated on a concrete
2x1 image and 1x1 doubling kernel at pixel (1, 0). -/
theorem serial_matches_spec_convolution_witness :
    (apply_filter_serial ⟨2, 1, 255, [5, 7]⟩ ⟨[2], 1, 1, "Double"⟩).width = 2 ∧
    (apply_filter_serial ⟨2, 1, 255, [5, 7]⟩ ⟨[2], 1, 1, "Double"⟩).height = 1 ∧
    (apply_filter_serial ⟨2, 1, 255, [5, 7]⟩ ⟨[2], 1, 1, "Double"⟩).pixel 1 0 =
      specPix255 ⟨2, 1, 255, [5, 7]⟩ ⟨[2], 1, 1, "Double"⟩ 1 0 :=
  serial_matches_spec_convolution ⟨2, 1, 255, [5, 7]⟩ ⟨[2], 1, 1, "Double"⟩ 1 0
    (by norm_num) (by norm_num)

/-- C10: for every input image, kernel and configuration, the serial,
parallel and tiled outputs keep the input's width and height but always carry
max_val = 255 (the output constructor's default), and the convolution result
is clamped to the constant 255 rather than to the input's max_val: on a 1x1
image with max_val = 100 and sample 100, the weight-3 kernel produces sample
255, above the input's max_val. -/
theorem filter_output_max_val_always_255 (input : GrayscaleImage)
    (kernel : Kernel) (config : FilterConfig) :
    ((apply_filter_serial input kernel).width = input.width ∧
     (apply_filter_serial input kernel).height = input.height ∧
     (apply_filter_serial input kernel).max_val = 255) ∧
    ((apply_filter_parallel input kernel config).width = input.width ∧
     (apply_filter_parallel input kernel config).height = input.height ∧
     (apply_filter_parallel input kernel config).max_val = 255) ∧
    ((apply_filter_tiled input kernel config).width = input.width ∧
     (apply_filter_tiled input kernel config).height = input.height ∧
     (apply_filter_tiled input kernel config).max_val = 255) ∧
    (apply_filter_serial ⟨1, 1, 100, [100]⟩ ⟨[3], 1, 1, "Triple"⟩).pixel 0 0 = 255 := by
  refine ⟨⟨rfl, rfl, rfl⟩, ?_, ⟨rfl, rfl, rfl⟩, ?_⟩
  · rcases config with ⟨nt, sch, ch, tl, ts⟩
    cases sch <;> simp only [apply_filter_parallel] <;> split <;> exact ⟨rfl, rfl, rfl⟩
  · rw [serial_pixel_eval _ _ (by norm_num) (by norm_num)]
    simp [convSerialPix, convRaw, convTerms, Kernel.radius, Kernel.atXY,
      GrayscaleImage.pixel, castU8, List.range_succ]
    norm_num
    rfl

/-- C5: a constant-valued image filtered with any well-formed kernel whose
weight sum equals its (nonzero) divisor reproduces the same constant
everywhere: each pixel's accumulated sum is c times the weight sum, division
by the divisor returns c, and the clamp and byte cast leave a byte value c
unchanged. -/
theorem constant_image_unit_gain_kernel_preserved (w h mv c : Nat)
    (kernel : Kernel) (hc : c ≤ 255) (hk : kernel.wf)
    (hdiv : kernel.divisor ≠ 0) (hsum : kernel.data.sum = kernel.divisor) :
    (apply_filter_serial ⟨w, h, mv, List.replicate (w * h) c⟩ kernel).data =
      List.replicate (w * h) c := by
  apply List.ext_getElem?
  intro n
  by_cases hn : n < w * h
  · have hw : 0 < w := by
      rcases Nat.eq_zero_or_pos w with h0 | h0
      · rw [h0] at hn; omega
      · exact h0
    have hh : 0 < h := by
      rcases Nat.eq_zero_or_pos h with h0 | h0
      · rw [h0] at hn; omega
      · exact h0
    unfold apply_filter_serial
    dsimp only
    rw [writePass_grid_getElem w h _ _
      (fun p hp => (mem_rowMajorOrder.mp hp).1)
      (fun a b ha hb => mem_rowMajorOrder.mpr ⟨ha, hb⟩) n hn]
    rw [List.getElem?_replicate, if_pos hn]
    congr 1
    unfold convSerialPix
    rw [convRaw_const w h mv c hw hh kernel _ _, kernel_grid_sum kernel hk, hsum]
    rw [mul_div_cancel_right₀ _ hdiv]
    have h255 : ((c : Nat) : ℚ) ≤ 255 := by exact_mod_cast hc
    rw [min_eq_right h255, max_eq_right (by positivity)]
    unfold castU8
    rw [Int.floor_natCast, Int.toNat_ofNat]
  · have h1 : (apply_filter_serial ⟨w, h, mv, List.replicate (w * h) c⟩
        kernel).data.length ≤ n := by
      unfold apply_filter_serial
      dsimp only
      rw [length_writePass, List.length_replicate]
      omega
    rw [List.getElem?_eq_none h1,
      List.getElem?_eq_none (by rw [List.length_replicate]; omega)]

/-- C5 witness: the flat-region preservation applied to the 4x4 buffer of
100s and the 3x3 box blur (nine unit weights, divisor 9). -/
theorem constant_image_unit_gain_kernel_preserved_witness :
    (apply_filter_serial ⟨4, 4, 255, List.replicate (4 * 4) 100⟩
        box_blur_3x3).data = List.replicate (4 * 4) 100 :=
  constant_image_unit_gain_kernel_preserved 4 4 255 100 box_blur_3x3
    (by norm_num) (by constructor <;> rfl)
    (by norm_num [box_blur_3x3])
    (by norm_num [box_blur_3x3, List.sum_cons, List.sum_nil])

theorem sobelGrad_const (w h mv c : Nat) (hw : 0 < w) (hh : 0 < h)
    (m : List (List Int)) (x y : Nat) :
    sobelGrad ⟨w, h, mv, List.replicate (w * h) c⟩ m x y =
      (c : ℚ) * ((List.range 3).flatMap (fun kyi =>
        (List.range 3).map (fun kxi => (sobelAt m kyi kxi : ℚ)))).sum := by
  unfold sobelGrad
  rw [list_grid_sum, list_grid_sum, Finset.mul_sum]
  refine Finset.sum_congr rfl fun kyi _ => ?_
  rw [Finset.mul_sum]
  refine Finset.sum_congr rfl fun kxi _ => ?_
  dsimp only
  rw [const_pixel_clamped hw hh]

theorem sobel_x_grid_sum_zero :
    ((List.range 3).flatMap (fun kyi =>
      (List.range 3).map (fun kxi => (sobelAt sobel_x kyi kxi : ℚ)))).sum = 0 := by
  simp [List.range_succ, sobelAt, sobel_x]

theorem sobel_y_grid_sum_zero :
    ((List.range 3).flatMap (fun kyi =>
      (List.range 3).map (fun kxi => (sobelAt sobel_y kyi kxi : ℚ)))).sum = 0 := by
  simp [List.range_succ, sobelAt, sobel_y]

/-- C6: on a constant-valued image both Sobel gradients vanish at every
pixel (each is the constant times the zero-sum Sobel mask), so the gradient
magnitude is zero and both the serial and the parallel Sobel outputs are
all-zero buffers. -/
theorem sobel_constant_image_all_zero (w h mv c : Nat) (config : FilterConfig) :
    (sobel_edge_detection_serial ⟨w, h, mv, List.replicate (w * h) c⟩).data =
      List.replicate (w * h) 0 ∧
    (sobel_edge_detection_parallel ⟨w, h, mv, List.replicate (w * h) c⟩
        config).data = List.replicate (w * h) 0 := by
  have hmain : (sobel_edge_detection_serial
      ⟨w, h, mv, List.replicate (w * h) c⟩).data = List.replicate (w * h) 0 := by
    apply List.ext_getElem?
    intro n
    by_cases hn : n < w * h
    · have hw : 0 < w := by
        rcases Nat.eq_zero_or_pos w with h0 | h0
        · rw [h0] at hn; omega
        · exact h0
      have hh : 0 < h := by
        rcases Nat.eq_zero_or_pos h with h0 | h0
        · rw [h0] at hn; omega
        · exact h0
      unfold sobel_edge_detection_serial
      dsimp only
      rw [writePass_grid_getElem w h _ _
        (fun p hp => (mem_rowMajorOrder.mp hp).1)
        (fun a b ha hb => mem_rowMajorOrder.mpr ⟨ha, hb⟩) n hn]
      rw [List.getElem?_replicate, if_pos hn]
      congr 1
      unfold sobelPix
      rw [sobelGrad_const w h mv c hw hh sobel_x,
        sobelGrad_const w h mv c hw hh sobel_y,
        sobel_x_grid_sum_zero, sobel_y_grid_sum_zero]
      simp [isqrtQ, castU8]
    · have h1 : (sobel_edge_detection_serial
          ⟨w, h, mv, List.replicate (w * h) c⟩).data.length ≤ n := by
        unfold sobel_edge_detection_serial
        dsimp only
        rw [length_writePass, List.length_replicate]
        omega
      rw [List.getElem?_eq_none h1,
        List.getElem?_eq_none (by rw [List.length_replicate]; omega)]
  exact ⟨hmain, hmain⟩

theorem length_histAccum (h : List Nat) (v : Nat) :
    (histAccum h v).length = h.length := by
  unfold histAccum
  exact List.length_set h v _

theorem length_foldl_histAccum (l : List Nat) :
    ∀ h : List Nat, (l.foldl histAccum h).length = h.length := by
  induction l with
  | nil => intro h; rfl
  | cons a t ih =>
    intro h
    rw [List.foldl_cons, ih, length_histAccum]

theorem getElem?_eq_some_getD (l : List Nat) (v : Nat) (hv : v < l.length) :
    l[v]? = some (l.getD v 0) := by
  rw [List.getD_eq_getElem?_getD, List.getElem?_eq_getElem hv]
  rfl

theorem getD_histAccum_self (h : List Nat) (v : Nat) (hv : v < h.length) :
    (histAccum h v).getD v 0 = h.getD v 0 + 1 := by
  unfold histAccum
  rw [List.getD_eq_getElem?_getD, List.getElem?_set_self hv]
  rfl

theorem getD_histAccum_ne (h : List Nat) (a v : Nat) (hne : a ≠ v) :
    (histAccum h a).getD v 0 = h.getD v 0 := by
  unfold histAccum
  rw [List.getD_eq_getElem?_getD, List.getElem?_set_ne hne,
    ← List.getD_eq_getElem?_getD]

theorem foldl_histAccum_getD (l : List Nat) :
    ∀ (h : List Nat) (v : Nat), v < h.length → (∀ s ∈ l, s < h.length) →
      (l.foldl histAccum h).getD v 0 = h.getD v 0 + l.count v := by
  induction l with
  | nil => intro h v _ _; simp [List.count_nil]
  | cons a t ih =>
    intro h v hv hall
    rw [List.foldl_cons]
    rw [ih (histAccum h a) v (by rw [length_histAccum]; exact hv)
      (fun s hs => by
        rw [length_histAccum]
        exact hall s (List.mem_cons_of_mem a hs))]
    by_cases hav : a = v
    · subst hav
      rw [getD_histAccum_self h a hv, List.count_cons]
      simp
      omega
    · rw [getD_histAccum_ne h a v hav, List.count_cons]
      simp [hav]

theorem sum_histAccum (h : List Nat) (a : Nat) (ha : a < h.length) :
    (histAccum h a).sum = h.sum + 1 := by
  unfold histAccum
  rw [List.sum_set]
  have hdrop := List.drop_eq_getElem_cons ha
  have hsplit := List.sum_take_add_sum_drop h a
  rw [hdrop, List.sum_cons] at hsplit
  have hgd : h.getD a 0 = h[a] := by
    rw [List.getD_eq_getElem?_getD, List.getElem?_eq_getElem ha]
    rfl
  rw [if_pos ha, hgd]
  omega

theorem sum_foldl_histAccum (l : List Nat) :
    ∀ h : List Nat, (∀ s ∈ l, s < h.length) →
      (l.foldl histAccum h).sum = h.sum + l.length := by
  induction l with
  | nil => intro h _; simp
  | cons a t ih =>
    intro h hall
    rw [List.foldl_cons]
    rw [ih (histAccum h a) (fun s hs => by
      rw [length_histAccum]
      exact hall s (List.mem_cons_of_mem a hs))]
    rw [sum_histAccum h a (hall a (List.mem_cons_self a t)), List.length_cons]
    omega

theorem length_mergeHist (h1 h2 : List Nat) :
    (mergeHist h1 h2).length = min h1.length h2.length := by
  unfold mergeHist
  exact List.length_zipWith _ h1 h2

theorem getD_mergeHist (h1 h2 : List Nat) (v : Nat) (hv1 : v < h1.length)
    (hv2 : v < h2.length) :
    (mergeHist h1 h2).getD v 0 = h1.getD v 0 + h2.getD v 0 := by
  unfold mergeHist
  rw [List.getD_eq_getElem?_getD, List.getElem?_zipWith,
    List.getElem?_eq_getElem hv1, List.getElem?_eq_getElem hv2]
  rw [List.getD_eq_getElem?_getD, List.getD_eq_getElem?_getD,
    List.getElem?_eq_getElem hv1, List.getElem?_eq_getElem hv2]
  rfl

theorem length_foldl_mergeHist (hs : List (List Nat)) :
    ∀ acc : List Nat, (∀ x ∈ hs, x.length = acc.length) →
      (hs.foldl mergeHist acc).length = acc.length := by
  induction hs with
  | nil => intro acc _; rfl
  | cons a t ih =>
    intro acc hall
    rw [List.foldl_cons]
    have hlen : (mergeHist acc a).length = acc.length := by
      rw [length_mergeHist, hall a (List.mem_cons_self a t), Nat.min_self]
    rw [ih (mergeHist acc a) (fun x hx => by
      rw [hlen]; exact hall x (List.mem_cons_of_mem a hx)), hlen]

theorem getD_foldl_mergeHist (hs : List (List Nat)) :
    ∀ (acc : List Nat) (v : Nat), v < acc.length →
      (∀ x ∈ hs, x.length = acc.length) →
      (hs.foldl mergeHist acc).getD v 0 =
        acc.getD v 0 + (hs.map (fun x => x.getD v 0)).sum := by
  induction hs with
  | nil => intro acc v _ _; simp
  | cons a t ih =>
    intro acc v hv hall
    rw [List.foldl_cons]
    have hlen : (mergeHist acc a).length = acc.length := by
      rw [length_mergeHist, hall a (List.mem_cons_self a t), Nat.min_self]
    rw [ih (mergeHist acc a) v (by rw [hlen]; exact hv)
      (fun x hx => by rw [hlen]; exact hall x (List.mem_cons_of_mem a hx))]
    rw [getD_mergeHist acc a v hv
      (by rw [hall a (List.mem_cons_self a t)]; exact hv)]
    rw [List.map_cons, List.sum_cons]
    omega

/-- C3: compute_histogram_parallel returns 256 bins; bin v counts the
samples equal to v; the bins sum to width*height; for every decomposition of
the samples into worker chunks the bin-wise merged per-chunk histograms give
exactly the same result (worker-count and merge-order independence); and the
concrete 10-sample buffer with nine 0s and one 255 yields bin 0 = 9,
bin 255 = 1 and all other bins 0. -/
theorem histogram_correct :
    (∀ im : GrayscaleImage, (compute_histogram_parallel im).length = 256) ∧
    (∀ im : GrayscaleImage, im.wf →
      (∀ v, v < 256 → (compute_histogram_parallel im).getD v 0 = im.data.count v) ∧
      (compute_histogram_parallel im).sum = im.width * im.height) ∧
    (∀ (im : GrayscaleImage) (chunks : List (List Nat)), im.wf →
      chunks.flatten.Perm im.data →
      histOfChunks chunks = compute_histogram_parallel im) ∧
    ((compute_histogram_parallel
        ⟨10, 1, 255, [0, 0, 0, 0, 0, 0, 0, 0, 0, 255]⟩).getD 0 0 = 9 ∧
     (compute_histogram_parallel
        ⟨10, 1, 255, [0, 0, 0, 0, 0, 0, 0, 0, 0, 255]⟩).getD 255 0 = 1 ∧
     ∀ v, v ≠ 0 → v ≠ 255 →
       (compute_histogram_parallel
          ⟨10, 1, 255, [0, 0, 0, 0, 0, 0, 0, 0, 0, 255]⟩).getD v 0 = 0) := by
  have hlen : ∀ im : GrayscaleImage, (compute_histogram_parallel im).length = 256 := by
    intro im
    unfold compute_histogram_parallel histLocal
    rw [length_foldl_histAccum, List.length_replicate]
  have hbin : ∀ l : List Nat, (∀ s ∈ l, s < 256) → ∀ v, v < 256 →
      (histLocal l).getD v 0 = l.count v := by
    intro l hall v hv
    unfold histLocal
    rw [foldl_histAccum_getD l (List.replicate 256 0) v
      (by rw [List.length_replicate]; exact hv)
      (fun s hs => by rw [List.length_replicate]; exact hall s hs)]
    rw [getD_replicate_of_lt hv, Nat.zero_add]
  refine ⟨hlen, ?_, ?_, ?_⟩
  · intro im hwf
    have hall : ∀ s ∈ im.data, s < 256 := fun s hs => by
      have := hwf.2 s hs; omega
    refine ⟨fun v hv => hbin im.data hall v hv, ?_⟩
    unfold compute_histogram_parallel histLocal
    rw [sum_foldl_histAccum im.data (List.replicate 256 0)
      (fun s hs => by rw [List.length_replicate]; exact hall s hs)]
    rw [List.sum_replicate, smul_zero, Nat.zero_add]
    exact hwf.1
  · intro im chunks hwf hperm
    have hall : ∀ s ∈ im.data, s < 256 := fun s hs => by
      have := hwf.2 s hs; omega
    have hallc : ∀ l ∈ chunks, ∀ s ∈ l, s < 256 := by
      intro l hl s hs
      exact hall s (hperm.mem_iff.mp (List.mem_flatten.mpr ⟨l, hl, hs⟩))
    have hlens : ∀ x ∈ chunks.map histLocal, x.length = 256 := by
      intro x hx
      obtain ⟨l, _, rfl⟩ := List.mem_map.mp hx
      unfold histLocal
      rw [length_foldl_histAccum, List.length_replicate]
    apply List.ext_getElem?
    intro v
    by_cases hv : v < 256
    · rw [getElem?_eq_some_getD _ v
        (by
          unfold histOfChunks
          rw [length_foldl_mergeHist (chunks.map histLocal) _
            (by rw [List.length_replicate]; exact hlens), List.length_replicate]
          exact hv)]
      rw [getElem?_eq_some_getD _ v (by rw [hlen im]; exact hv)]
      congr 1
      unfold histOfChunks
      rw [getD_foldl_mergeHist (chunks.map histLocal) (List.replicate 256 0) v
        (by rw [List.length_replicate]; exact hv)
        (by rw [List.length_replicate]; exact hlens)]
      rw [getD_replicate_of_lt hv, Nat.zero_add]
      unfold compute_histogram_parallel
      rw [hbin im.data hall v hv]
      rw [← hperm.count_eq v, List.count_flatten]
      rw [List.map_map]
      congr 1
      apply List.map_congr_left
      intro l hl
      exact hbin l (hallc l hl) v hv
    · rw [List.getElem?_eq_none, List.getElem?_eq_none]
      · rw [hlen im]; omega
      · unfold histOfChunks
        rw [length_foldl_mergeHist (chunks.map histLocal) _
          (by rw [List.length_replicate]; exact hlens), List.length_replicate]
        omega
  · have hallc : ∀ s ∈ [0, 0, 0, 0, 0, 0, 0, 0, 0, 255], s < 256 := by decide
    refine ⟨?_, ?_, ?_⟩
    · unfold compute_histogram_parallel
      rw [hbin _ hallc 0 (by omega)]
      decide
    · unfold compute_histogram_parallel
      rw [hbin _ hallc 255 (by omega)]
      decide
    · intro v h0 h255
      by_cases hv : v < 256
      · unfold compute_histogram_parallel
        rw [hbin _ hallc v hv]
        simp [List.count_cons, List.count_nil, beq_iff_eq, h0, h255, Ne.symm h0,
          Ne.symm h255]
      · rw [List.getD_eq_getElem?_getD, List.getElem?_eq_none (by rw [hlen]; omega)]
        rfl

/-- C3 witness: the histogram theorem applied to the concrete 10-sample
buffer, with the well-formedness and chunk-decomposition hypotheses
discharged concretely. -/
theorem histogram_correct_witness :
    (compute_histogram_parallel
        ⟨10, 1, 255, [0, 0, 0, 0, 0, 0, 0, 0, 0, 255]⟩).sum = 10 * 1 ∧
    histOfChunks [[0, 0, 0, 0, 0], [0, 0, 0, 0, 255]] =
      compute_histogram_parallel ⟨10, 1, 255, [0, 0, 0, 0, 0, 0, 0, 0, 0, 255]⟩ ∧
    (compute_histogram_parallel
        ⟨10, 1, 255, [0, 0, 0, 0, 0, 0, 0, 0, 0, 255]⟩).getD 7 0 =
      [0, 0, 0, 0, 0, 0, 0, 0, 0, 255].count 7 :=
  ⟨(histogram_correct.2.1 _ (by decide)).2,
   histogram_correct.2.2.1 _ [[0, 0, 0, 0, 0], [0, 0, 0, 0, 255]] (by decide)
     (by decide),
   (histogram_correct.2.1 _ (by decide)).1 7 (by decide)⟩

theorem stats_eval (im : GrayscaleImage) (hne : im.data ≠ []) :
    compute_statistics_parallel im =
      ⟨(im.data.map (fun (v : Nat) => (v : ℚ))).foldl (fun m v => if v < m then v else m) 255,
       (im.data.map (fun (v : Nat) => (v : ℚ))).foldl (fun m v => if m < v then v else m) 0,
       (im.data.map (fun (v : Nat) => (v : ℚ))).sum / (im.data.length : ℚ),
       ((im.data.map (fun (v : Nat) => (v : ℚ))).map (fun v => v * v)).sum / (im.data.length : ℚ) -
         ((im.data.map (fun (v : Nat) => (v : ℚ))).sum / (im.data.length : ℚ)) *
           ((im.data.map (fun (v : Nat) => (v : ℚ))).sum / (im.data.length : ℚ))⟩ := by
  unfold compute_statistics_parallel
  rw [if_neg (by simpa [List.length_eq_zero] using hne)]

theorem foldl_min_body_eq :
    (fun (m v : ℚ) => if v < m then v else m) = min := by
  funext m v
  rw [min_def]
  by_cases h : v < m
  · rw [if_pos h, if_neg (not_le.mpr h)]
  · rw [if_neg h, if_pos (not_lt.mp h)]

theorem foldl_max_body_eq :
    (fun (m v : ℚ) => if m < v then v else m) = max := by
  funext m v
  rw [max_def]
  by_cases h1 : m < v <;> by_cases h2 : m ≤ v <;> simp [h1, h2] <;> linarith

theorem foldl_min_le_init (l : List ℚ) : ∀ a : ℚ, l.foldl min a ≤ a := by
  induction l with
  | nil => intro a; exact le_refl a
  | cons v t ih =>
    intro a
    rw [List.foldl_cons]
    exact le_trans (ih (min a v)) (min_le_left a v)

theorem foldl_min_le_mem (l : List ℚ) :
    ∀ (a u : ℚ), u ∈ l → l.foldl min a ≤ u := by
  induction l with
  | nil => intro a u hu; cases hu
  | cons v t ih =>
    intro a u hu
    rw [List.foldl_cons]
    rcases List.mem_cons.mp hu with rfl | hm
    · exact le_trans (foldl_min_le_init t (min a u)) (min_le_right a u)
    · exact ih (min a v) u hm

theorem foldl_min_eq_init_or_mem (l : List ℚ) :
    ∀ a : ℚ, l.foldl min a = a ∨ l.foldl min a ∈ l := by
  induction l with
  | nil => intro a; exact Or.inl rfl
  | cons v t ih =>
    intro a
    rw [List.foldl_cons]
    rcases ih (min a v) with h | h
    · rcases min_choice a v with hm | hm
      · exact Or.inl (h.trans hm)
      · exact Or.inr (List.mem_cons.mpr (Or.inl (h.trans hm)))
    · exact Or.inr (List.mem_cons_of_mem v h)

theorem foldl_max_init_le (l : List ℚ) : ∀ a : ℚ, a ≤ l.foldl max a := by
  induction l with
  | nil => intro a; exact le_refl a
  | cons v t ih =>
    intro a
    rw [List.foldl_cons]
    exact le_trans (le_max_left a v) (ih (max a v))

theorem foldl_max_mem_le (l : List ℚ) :
    ∀ (a u : ℚ), u ∈ l → u ≤ l.foldl max a := by
  induction l with
  | nil => intro a u hu; cases hu
  | cons v t ih =>
    intro a u hu
    rw [List.foldl_cons]
    rcases List.mem_cons.mp hu with rfl | hm
    · exact le_trans (le_max_right a u) (foldl_max_init_le t (max a u))
    · exact ih (max a v) u hm

theorem foldl_max_eq_init_or_mem (l : List ℚ) :
    ∀ a : ℚ, l.foldl max a = a ∨ l.foldl max a ∈ l := by
  induction l with
  | nil => intro a; exact Or.inl rfl
  | cons v t ih =>
    intro a
    rw [List.foldl_cons]
    rcases ih (max a v) with h | h
    · rcases max_choice a v with hm | hm
      · exact Or.inl (h.trans hm)
      · exact Or.inr (List.mem_cons.mpr (Or.inl (h.trans hm)))
    · exact Or.inr (List.mem_cons_of_mem v h)

theorem cast_sq_map_eq (l : List Nat) :
    (((l.map (fun v => v * v)).sum : Nat) : ℚ) =
      ((l.map (fun (v : Nat) => (v : ℚ))).map (fun v => v * v)).sum := by
  rw [Nat.cast_list_sum, List.map_map, List.map_map]
  refine congrArg List.sum (List.map_congr_left fun v _ => ?_)
  simp only [Function.comp_apply]
  push_cast
  ring

/-- C4: for every well-formed nonempty image, compute_statistics_parallel
returns min_val = the minimum sample (attained and a lower bound), max_val =
the maximum sample, mean = sum/n, and variance = sum-of-squares/n - mean^2;
an empty image returns all four outputs as zero; the buffer [0, 10, 20, 30]
yields min 0, max 30, mean 15, variance 125. -/
theorem statistics_correct :
    (∀ im : GrayscaleImage, im.wf → im.data ≠ [] →
      ((compute_statistics_parallel im).min_val ∈ im.data.map (fun (v : Nat) => (v : ℚ)) ∧
        ∀ u ∈ im.data.map (fun (v : Nat) => (v : ℚ)),
          (compute_statistics_parallel im).min_val ≤ u) ∧
      ((compute_statistics_parallel im).max_val ∈ im.data.map (fun (v : Nat) => (v : ℚ)) ∧
        ∀ u ∈ im.data.map (fun (v : Nat) => (v : ℚ)),
          u ≤ (compute_statistics_parallel im).max_val) ∧
      (compute_statistics_parallel im).mean =
        (im.data.sum : ℚ) / (im.data.length : ℚ) ∧
      (compute_statistics_parallel im).variance =
        (((im.data.map (fun v => v * v)).sum : Nat) : ℚ) / (im.data.length : ℚ) -
          ((im.data.sum : ℚ) / (im.data.length : ℚ)) ^ 2) ∧
    (∀ im : GrayscaleImage, im.data = [] →
      compute_statistics_parallel im = ⟨0, 0, 0, 0⟩) ∧
    compute_statistics_parallel ⟨4, 1, 255, [0, 10, 20, 30]⟩ = ⟨0, 30, 15, 125⟩ := by
  refine ⟨?_, ?_, ?_⟩
  · intro im hwf hne
    rw [stats_eval im hne]
    dsimp only
    rw [foldl_min_body_eq, foldl_max_body_eq]
    have hvne : im.data.map (fun (v : Nat) => (v : ℚ)) ≠ [] := by
      intro hmap
      exact hne (List.map_eq_nil_iff.mp hmap)
    obtain ⟨u0, hu0⟩ := List.exists_mem_of_ne_nil _ hvne
    refine ⟨⟨?_, fun u hu => foldl_min_le_mem _ 255 u hu⟩,
      ⟨?_, fun u hu => foldl_max_mem_le _ 0 u hu⟩, ?_, ?_⟩
    · rcases foldl_min_eq_init_or_mem (im.data.map (fun (v : Nat) => (v : ℚ))) 255 with h | h
      · obtain ⟨s, hs, rfl⟩ := List.mem_map.mp hu0
        have hub : ((s : Nat) : ℚ) ≤ 255 := by exact_mod_cast hwf.2 s hs
        have hle := foldl_min_le_mem (im.data.map (fun (v : Nat) => (v : ℚ))) 255 _ hu0
        rw [h] at hle ⊢
        have heq : ((s : Nat) : ℚ) = 255 := le_antisymm hub hle
        rw [← heq]
        exact hu0
      · exact h
    · rcases foldl_max_eq_init_or_mem (im.data.map (fun (v : Nat) => (v : ℚ))) 0 with h | h
      · obtain ⟨s, hs, rfl⟩ := List.mem_map.mp hu0
        have hlb : (0 : ℚ) ≤ ((s : Nat) : ℚ) := by positivity
        have hge := foldl_max_mem_le (im.data.map (fun (v : Nat) => (v : ℚ))) 0 _ hu0
        rw [h] at hge ⊢
        have heq : ((s : Nat) : ℚ) = 0 := le_antisymm hge hlb
        rw [← heq]
        exact hu0
      · exact h
    · rw [Nat.cast_list_sum]
    · rw [cast_sq_map_eq, Nat.cast_list_sum, pow_two]
  · intro im h
    unfold compute_statistics_parallel
    rw [if_pos (by rw [h]; rfl)]
  · rw [stats_eval _ (by decide)]
    norm_num [List.foldl_cons, List.foldl_nil, List.map_cons, List.map_nil,
      List.sum_cons, List.sum_nil, Stats.mk.injEq]

/-- C4 witness: the statistics theorem applied to the concrete buffer
[0, 10, 20, 30], with well-formedness and nonemptiness discharged
concretely. -/
theorem statistics_correct_witness :
    (compute_statistics_parallel ⟨4, 1, 255, [0, 10, 20, 30]⟩).mean =
      (([0, 10, 20, 30] : List Nat).sum : ℚ) / (([0, 10, 20, 30] : List Nat).length : ℚ) ∧
    compute_statistics_parallel ⟨0, 0, 255, []⟩ = ⟨0, 0, 0, 0⟩ :=
  ⟨(statistics_correct.1 ⟨4, 1, 255, [0, 10, 20, 30]⟩ (by decide) (by decide)).2.2.1,
   statistics_correct.2.1 ⟨0, 0, 255, []⟩ rfl⟩

theorem getD_map_sq (l : List ℚ) (i : Nat) :
    (l.map (fun v => v * v)).getD i 0 = l.getD i 0 * l.getD i 0 := by
  rcases lt_or_ge i l.length with h | h
  · rw [List.getD_eq_getElem?_getD, List.getD_eq_getElem?_getD,
      List.getElem?_map, List.getElem?_eq_getElem h]
    rfl
  · rw [List.getD_eq_getElem?_getD, List.getD_eq_getElem?_getD,
      List.getElem?_eq_none h, List.getElem?_eq_none (by rw [List.length_map]; exact h)]
    norm_num

/-- C9: for every nonempty image the variance produced by
compute_statistics_parallel is nonnegative: in the exact arithmetic of the
model, sum-of-squares/n - (sum/n)^2 >= 0 by the Cauchy-Schwarz bound
(sum v)^2 <= n * sum v^2. -/
theorem variance_nonneg (im : GrayscaleImage) (hne : im.data ≠ []) :
    0 ≤ (compute_statistics_parallel im).variance := by
  rw [stats_eval im hne]
  dsimp only
  have hn : (0 : ℚ) < (im.data.length : ℚ) := by
    have hpos : 0 < im.data.length :=
      Nat.pos_of_ne_zero (by simpa [List.length_eq_zero] using hne)
    exact_mod_cast hpos
  set vals := im.data.map (fun (v : Nat) => (v : ℚ)) with hvals
  have hlen : vals.length = im.data.length := List.length_map _ _
  have hkey : vals.sum ^ 2 ≤
      (im.data.length : ℚ) * (vals.map (fun v => v * v)).sum := by
    rw [list_sum_eq_range_getD vals, list_sum_eq_range_getD (vals.map (fun v => v * v))]
    simp only [hvals, List.length_map]
    have hmap : ∀ i ∈ Finset.range im.data.length,
        (vals.map (fun v => v * v)).getD i 0 = vals.getD i 0 ^ 2 := by
      intro i _
      rw [getD_map_sq, pow_two]
    rw [Finset.sum_congr rfl hmap]
    have hcs := sq_sum_le_card_mul_sum_sq (s := Finset.range im.data.length)
      (f := fun i => vals.getD i 0)
    rw [Finset.card_range] at hcs
    exact hcs
  rw [sub_nonneg, div_mul_div_comm, div_le_div_iff₀ (by positivity) hn]
  nlinarith [mul_le_mul_of_nonneg_right hkey (le_of_lt hn)]

/-- C9 witness: nonnegativity of the variance at the concrete buffer
[0, 10, 20, 30]. -/
theorem variance_nonneg_witness :
    0 ≤ (compute_statistics_parallel ⟨4, 1, 255, [0, 10, 20, 30]⟩).variance :=
  variance_nonneg ⟨4, 1, 255, [0, 10, 20, 30]⟩ (by decide)

end filter

namespace kernels

theorem toLowerByte_idem (b : Nat) :
    toLowerByte (toLowerByte b) = toLowerByte b := by
  unfold toLowerByte
  by_cases h : 65 ≤ b ∧ b ≤ 90
  · rw [if_pos h, if_neg (by omega)]
  · rw [if_neg h, if_neg h]

theorem lowerBytes_idem (s : List Nat) :
    lowerBytes (lowerBytes s) = lowerBytes s := by
  unfold lowerBytes
  rw [List.map_map]
  exact List.map_congr_left fun b _ => toLowerByte_idem b

/-- C7: get_kernel_by_name is case-insensitive - for every byte-string name,
the lookup produces the same kernel (or the same absence of one) as the
lookup of its lowercased form - and the unknown name "not_a_filter" fails
with the distinct invalid-argument error carrying the message bytes, which
no successful lookup can equal. -/
theorem kernel_lookup_case_insensitive_unknown_fails :
    (∀ name : List Nat,
      (get_kernel_by_name name).toOption =
        (get_kernel_by_name (lowerBytes name)).toOption) ∧
    get_kernel_by_name (litBytes "not_a_filter") =
      Except.error (litBytes "Unknown kernel: " ++ litBytes "not_a_filter") ∧
    ∀ k : Kernel, get_kernel_by_name (litBytes "not_a_filter") ≠ Except.ok k := by
  have herr : get_kernel_by_name (litBytes "not_a_filter") =
      Except.error (litBytes "Unknown kernel: " ++ litBytes "not_a_filter") := by
    unfold get_kernel_by_name
    have hnone : lookupLower (lowerBytes (litBytes "not_a_filter")) = none := by
      decide
    rw [hnone]
  refine ⟨?_, herr, ?_⟩
  · intro name
    unfold get_kernel_by_name
    rw [lowerBytes_idem]
    cases lookupLower (lowerBytes name) <;> rfl
  · intro k hk
    rw [herr] at hk
    cases hk

end kernels

namespace filter

open img kernels

theorem chainLoop_eq_foldlM (kernel_names : List (List Nat)) :
    ∀ current : GrayscaleImage,
      chainLoop current kernel_names = chainSpecFold current kernel_names := by
  induction kernel_names with
  | nil => intro current; rfl
  | cons nm rest ih =>
    intro current
    unfold chainLoop chainSpecFold
    rw [List.foldlM_cons]
    cases h : get_kernel_by_name nm with
    | error e =>
      simp only [h, Except.map]
      rfl
    | ok k =>
      simp only [h, Except.map]
      exact ih (apply_filter_serial current k)

/-- C8: apply_filter_chain_serial is the left fold of apply_filter_serial
over the looked-up kernels in the given order, each step's output feeding
the next (a failed lookup aborting the chain), and the empty kernel-name
sequence is the identity: the input is returned unchanged. -/
theorem chain_is_left_fold_and_empty_is_identity :
    (∀ (input : GrayscaleImage) (kernel_names : List (List Nat)),
      apply_filter_chain_serial input kernel_names =
        chainSpecFold input kernel_names) ∧
    ∀ input : GrayscaleImage,
      apply_filter_chain_serial input [] = Except.ok input := by
  refine ⟨?_, fun input => rfl⟩
  intro input kernel_names
  unfold apply_filter_chain_serial
  by_cases h : kernel_names.isEmpty
  · rw [if_pos h]
    have he : kernel_names = [] := List.isEmpty_iff.mp h
    subst he
    rfl
  · rw [if_neg h]
    exact chainLoop_eq_foldlM kernel_names input

end filter
